import Mathlib

/-!
Verification of the piece-assemble repository: a shallow embedding of the
curve-segmentation engine (src/piece_assemble/piece.py) and the cluster
assembly engine (src/piece_assemble/clustering.py), together with theorems
settling the frozen claims about them.

Conventions of the embedding:
* Python floats are modelled as exact rationals; the only irrational
  operation reached by a claim (square roots inside Euclidean distances)
  is modelled in the real numbers.
* Python dictionaries are modelled as association lists in insertion
  order; piece-id strings are modelled by an abstract key type with
  decidable equality.
* A Python function that can raise is modelled with Except/Option.
* Collaborator code that lives outside the two source files
  (geometry.py, contours.py, segment.py, shapely) is either taken as an
  abstract parameter or defined with a doc comment starting with
  "Modelled from the spec:".
-/

namespace PieceAssemble

/-! ## Circular interval arithmetic (spec section 4.1)

The source's interval helpers live in piece_assemble/geometry.py, which is
not part of the two examined source files; they are modelled from the
spec's description of circular interval arithmetic. -/

/-- Modelled from the spec: the circular length of a half-open index
interval over a cyclic domain of size N, length = (end - start) mod N;
an interval with equal endpoints is empty. This is the quantity
geometry.extend_intervals exhibits as extended end minus start. -/
def ilen (N : ℕ) (a : ℕ × ℕ) : ℕ := (a.2 + N - a.1) % N

/-- Modelled from the spec: geometry.extend_interval canonicalizes a
reduced interval into the (start, start + length) representation. -/
def extendInterval (N : ℕ) (a : ℕ × ℕ) : ℕ × ℕ := (a.1, a.1 + ilen N a)

/-- Modelled from the spec: geometry.interval_difference subtracts
interval b from interval a over a cyclic domain of size N.  Removing b
can split a into two runs; the single remaining run of maximal length is
returned, reduced mod N, and the empty sentinel (x, x) is returned when
a is fully consumed.  The computation works in offsets from a's start:
a covers offsets [0, la); b covers a wrapped prefix [0, p) and a middle
run [m1, m2), so the remainder is the longer of [p, m1) and [m2, la). -/
def intervalDifference (a b : ℕ × ℕ) (N : ℕ) : ℕ × ℕ :=
  let la := ilen N a
  let lb := ilen N b
  let db := (b.1 + N - a.1) % N
  let p := if N < db + lb then min (db + lb - N) la else 0
  let m1 := min db la
  let m2 := min (db + lb) la
  if la = 0 ∨ lb = 0 then a
  else if la - m2 ≤ m1 - p then
    (if m1 - p = 0 then (a.1, a.1) else ((a.1 + p) % N, (a.1 + m1) % N))
  else ((a.1 + m2) % N, (a.1 + la) % N)

lemma ilen_lt (N : ℕ) (hN : 0 < N) (a : ℕ × ℕ) : ilen N a < N :=
  Nat.mod_lt _ hN

lemma ilen_same (N s : ℕ) : ilen N (s, s) = 0 := by
  unfold ilen
  simp only
  rw [Nat.add_sub_cancel_left, Nat.mod_self]

/-- Key arithmetic fact: the circular length of the reduced interval
((s + q) % N, (s + r) % N) is r - q, whenever q ≤ r and r - q < N. -/
lemma ilen_shift (s q r N : ℕ) (hN : 0 < N) (hqr : q ≤ r) (hlt : r - q < N) :
    ilen N ((s + q) % N, (s + r) % N) = r - q := by
  have hB : (s + q) % N < N := Nat.mod_lt _ hN
  have h2 : Nat.ModEq N (((s + r) % N + N - (s + q) % N) + ((s + q) % N))
      ((r - q) + ((s + q) % N)) := by
    calc ((s + r) % N + N - (s + q) % N) + ((s + q) % N)
        = (s + r) % N + N := by omega
      _ ≡ (s + r) % N [MOD N] := by show (_ + N) % N = _ ; rw [Nat.add_mod_right]
      _ ≡ s + r [MOD N] := (Nat.mod_modEq _ _)
      _ = (r - q) + (s + q) := by omega
      _ ≡ (r - q) + ((s + q) % N) [MOD N] :=
          (Nat.ModEq.add_left _ (Nat.mod_modEq _ _).symm)
  have h3 : Nat.ModEq N ((s + r) % N + N - (s + q) % N) (r - q) :=
    h2.add_right_cancel' _
  have h4 : (r - q) % N = r - q := Nat.mod_eq_of_lt hlt
  unfold Nat.ModEq at h3
  unfold ilen
  simp only at h3 ⊢
  omega

/-- Subtracting an interval never lengthens the remainder (spec section 8:
length(difference(a,b,N)) ≤ length(a)). -/
lemma intervalDifference_ilen_le (N : ℕ) (hN : 0 < N) (a b : ℕ × ℕ) :
    ilen N (intervalDifference a b N) ≤ ilen N a := by
  have hla : ilen N a < N := ilen_lt N hN a
  unfold intervalDifference
  simp only
  split_ifs with h1 h2 h3 h4 h5 h6
  all_goals first
    | exact le_rfl
    | (rw [ilen_same]; exact Nat.zero_le _)
    | (rw [ilen_shift _ _ _ _ hN (by omega) (by omega)]; omega)

/-- Subtracting a nonempty interval from itself yields the empty
sentinel (spec section 8: difference(a,a,N) is empty). -/
lemma intervalDifference_self (N : ℕ) (a : ℕ × ℕ) (h : ilen N a ≠ 0) :
    intervalDifference a a N = (a.1, a.1) := by
  have hdb : (a.1 + N - a.1) % N = 0 := by
    rw [Nat.add_sub_cancel_left, Nat.mod_self]
  unfold intervalDifference
  simp only [hdb, Nat.zero_add, min_self, Nat.sub_self, Nat.zero_min]
  split_ifs with h1 h2 h3 <;> first
    | rfl
    | omega

/-! ## Generic list helpers used by the embedding -/

lemma getD_map {α β : Type} (l : List α) (f : α → β) (n : ℕ) (d : α) :
    (l.map f).getD n (f d) = f (l.getD n d) := by
  induction l generalizing n with
  | nil => simp
  | cons a t ih => cases n <;> simp [ih]

lemma length_filter_lt {α : Type} (l : List α) (p : α → Bool) (x : α)
    (hx : x ∈ l) (hp : p x = false) : (l.filter p).length < l.length := by
  induction l with
  | nil => cases hx
  | cons a t ih =>
    rcases List.mem_cons.mp hx with rfl | hm
    · simp only [List.filter_cons, hp]
      exact Nat.lt_succ_of_le (List.length_filter_le _ _)
    · by_cases hpa : p a = true
      · simpa [List.filter_cons, hpa] using Nat.succ_lt_succ (ih hm)
      · have hpa' : p a = false := by simpa using hpa
        simp only [List.filter_cons, hpa']
        exact Nat.lt_succ_of_lt (ih hm)

/-- Index of the first occurrence of the maximum of a list of naturals,
embedding np.argmax (numpy returns the first maximal index). -/
def argmaxIdx : List ℕ → ℕ
  | [] => 0
  | [_] => 0
  | x :: y :: ys =>
    if (y :: ys).getD (argmaxIdx (y :: ys)) 0 ≤ x then 0 else argmaxIdx (y :: ys) + 1

lemma argmaxIdx_lt : (xs : List ℕ) → xs ≠ [] → argmaxIdx xs < xs.length
  | [], h => absurd rfl h
  | [_], _ => by simp [argmaxIdx]
  | x :: y :: ys, _ => by
    unfold argmaxIdx
    split
    · simp
    · have := argmaxIdx_lt (y :: ys) (by simp)
      simpa using Nat.succ_lt_succ this

lemma argmaxIdx_ge : (xs : List ℕ) → ∀ i, i < xs.length →
    xs.getD i 0 ≤ xs.getD (argmaxIdx xs) 0
  | [], i, h => by simp at h
  | [_], i, h => by
    have : i = 0 := by simpa using Nat.lt_one_iff.mp (by simpa using h)
    subst this
    simp [argmaxIdx]
  | x :: y :: ys, i, h => by
    unfold argmaxIdx
    split
    · rename_i hmax
      cases i with
      | zero => simp
      | succ j =>
        have hj : j < (y :: ys).length := by simpa using h
        calc (x :: y :: ys).getD (j + 1) 0 = (y :: ys).getD j 0 := rfl
          _ ≤ (y :: ys).getD (argmaxIdx (y :: ys)) 0 := argmaxIdx_ge (y :: ys) j hj
          _ ≤ x := hmax
          _ = (x :: y :: ys).getD 0 0 := rfl
    · rename_i hmax
      cases i with
      | zero =>
        calc (x :: y :: ys).getD 0 0 = x := rfl
          _ ≤ (y :: ys).getD (argmaxIdx (y :: ys)) 0 := le_of_not_le hmax
          _ = (x :: y :: ys).getD (argmaxIdx (y :: ys) + 1) 0 := rfl
      | succ j =>
        have hj : j < (y :: ys).length := by simpa using h
        exact argmaxIdx_ge (y :: ys) j hj

/-! ## Greedy arc selection (piece.py, approximate_curve_by_circles) -/

/-- The per-iteration valid_lengths array of the while loop of
approximate_curve_by_circles: the circular length of each remaining
validity interval (extended end minus extended start). -/
def lensOf (N : ℕ) (l : List (ℕ × (ℕ × ℕ))) : List ℕ := l.map (fun p => ilen N p.2)

/-- The pair (interval_indexes[max_i], validity_intervals[max_i]) chosen
by np.argmax over the current valid lengths. -/
def selOf (N : ℕ) (l : List (ℕ × (ℕ × ℕ))) : ℕ × (ℕ × ℕ) :=
  l.getD (argmaxIdx (lensOf N l)) (0, (0, 0))

/-- The loop state after one iteration of approximate_curve_by_circles:
the chosen interval is subtracted from every remaining interval
(interval_difference) and pairs whose interval became the empty sentinel
(start = end) are dropped by the nonzero mask. -/
def nextOf (N : ℕ) (l : List (ℕ × (ℕ × ℕ))) : List (ℕ × (ℕ × ℕ)) :=
  (l.map (fun p => (p.1, intervalDifference p.2 (selOf N l).2 N))).filter
    (fun p => decide (p.2.1 ≠ p.2.2))

lemma lensOf_argmax_eq_sel (N : ℕ) (l : List (ℕ × (ℕ × ℕ))) :
    (lensOf N l).getD (argmaxIdx (lensOf N l)) 0 = ilen N (selOf N l).2 := by
  have hz : ilen N ((0 : ℕ × ℕ)) = 0 := by
    have h00 : ((0 : ℕ × ℕ)) = ((0 : ℕ), (0 : ℕ)) := rfl
    rw [h00]; exact ilen_same N 0
  have := getD_map l (fun p => ilen N p.2) (argmaxIdx (lensOf N l)) (0, (0, 0))
  simpa [lensOf, selOf, hz] using this

lemma nextOf_length_lt (N : ℕ) (l : List (ℕ × (ℕ × ℕ))) (hl : l ≠ [])
    (hmax : 1 < (lensOf N l).getD (argmaxIdx (lensOf N l)) 0) :
    (nextOf N l).length < l.length := by
  have hmi : argmaxIdx (lensOf N l) < l.length := by
    have h1 := argmaxIdx_lt (lensOf N l) (by simpa [lensOf] using hl)
    simpa [lensOf] using h1
  have hlen1 : 1 < ilen N (selOf N l).2 := by
    rw [lensOf_argmax_eq_sel] at hmax
    exact hmax
  have hdiff : intervalDifference (selOf N l).2 (selOf N l).2 N
      = ((selOf N l).2.1, (selOf N l).2.1) :=
    intervalDifference_self N (selOf N l).2 (by omega)
  have hmem : ((selOf N l).1, intervalDifference (selOf N l).2 (selOf N l).2 N)
      ∈ l.map (fun p => (p.1, intervalDifference p.2 (selOf N l).2 N)) := by
    have hlt : argmaxIdx (lensOf N l)
        < (l.map (fun p => (p.1, intervalDifference p.2 (selOf N l).2 N))).length := by
      simpa using hmi
    have h1 := List.getElem_mem hlt
    rw [List.getElem_map] at h1
    have hself : selOf N l = l[argmaxIdx (lensOf N l)] :=
      List.getD_eq_getElem l (0, (0, 0)) hmi
    rw [← hself] at h1
    exact h1
  have hfails : decide ((intervalDifference (selOf N l).2 (selOf N l).2 N).1
      ≠ (intervalDifference (selOf N l).2 (selOf N l).2 N).2) = false := by
    rw [hdiff]
    simp
  have := length_filter_lt _ (fun p => decide (p.2.1 ≠ p.2.2)) _ hmem hfails
  exact Nat.lt_of_le_of_lt (le_of_eq rfl)
    (by simpa [nextOf] using Nat.lt_of_lt_of_le this (by simp))

/-- The while loop of approximate_curve_by_circles.  The state is the
list of (osculating-circle index, reduced validity interval) pairs,
mirroring the parallel arrays interval_indexes / validity_intervals.
Each iteration takes the first interval of maximal circular length
(np.argmax over lensOf); if that length is at most 1 the loop stops,
otherwise the chosen pair selOf is emitted and the loop continues on
nextOf.  Returns the emitted pairs in selection order. -/
def selectArcs (N : ℕ) (l : List (ℕ × (ℕ × ℕ))) : List (ℕ × (ℕ × ℕ)) :=
  if hl : l = [] then []
  else
    if hmax : (lensOf N l).getD (argmaxIdx (lensOf N l)) 0 ≤ 1 then []
    else
      selOf N l :: selectArcs N (nextOf N l)
termination_by l.length
decreasing_by
  exact nextOf_length_lt N l hl (by omega)

lemma selOf_mem (N : ℕ) (l : List (ℕ × (ℕ × ℕ))) (hl : l ≠ []) : selOf N l ∈ l := by
  have hmi : argmaxIdx (lensOf N l) < l.length := by
    have h1 := argmaxIdx_lt (lensOf N l) (by simpa [lensOf] using hl)
    simpa [lensOf] using h1
  have hself : selOf N l = l[argmaxIdx (lensOf N l)] :=
    List.getD_eq_getElem l (0, (0, 0)) hmi
  rw [hself]
  exact List.getElem_mem hmi

lemma ilen_le_selOf (N : ℕ) (l : List (ℕ × (ℕ × ℕ))) :
    ∀ p ∈ l, ilen N p.2 ≤ ilen N (selOf N l).2 := by
  intro p hp
  obtain ⟨n, hn, hgp⟩ := List.getElem_of_mem hp
  have hn' : n < (lensOf N l).length := by simpa [lensOf] using hn
  have h1 : (lensOf N l).getD n 0 = ilen N p.2 := by
    rw [List.getD_eq_getElem _ 0 hn']
    unfold lensOf
    rw [List.getElem_map]
    rw [hgp]
  have h2 := argmaxIdx_ge (lensOf N l) n hn'
  rw [h1, lensOf_argmax_eq_sel] at h2
  exact h2

lemma mem_nextOf (N : ℕ) (l : List (ℕ × (ℕ × ℕ))) {x : ℕ × (ℕ × ℕ)}
    (hx : x ∈ nextOf N l) :
    ∃ p ∈ l, x = (p.1, intervalDifference p.2 (selOf N l).2 N) := by
  unfold nextOf at hx
  have hx' := List.mem_of_mem_filter hx
  obtain ⟨p, hp, hpe⟩ := List.mem_map.mp hx'
  exact ⟨p, hp, hpe.symm⟩

/-- Every pair emitted by the greedy loop was selected while its
validity interval had circular length strictly greater than 1 (the loop
stops as soon as the longest remaining length is at most 1). -/
lemma selectArcs_gt_one (N : ℕ) (l : List (ℕ × (ℕ × ℕ))) :
    ∀ x ∈ selectArcs N l, 1 < ilen N x.2 := by
  by_cases hl : l = []
  · rw [selectArcs]; simp [hl]
  · by_cases hmax : (lensOf N l).getD (argmaxIdx (lensOf N l)) 0 ≤ 1
    · rw [selectArcs]; simp only [dif_neg hl, dif_pos hmax]; simp
    · rw [selectArcs]
      simp only [dif_neg hl, dif_neg hmax]
      intro x hx
      rcases List.mem_cons.mp hx with rfl | hm
      · rw [← lensOf_argmax_eq_sel]; omega
      · exact selectArcs_gt_one N (nextOf N l) x hm
termination_by l.length
decreasing_by exact nextOf_length_lt N l hl (by omega)

/-- Every pair emitted by the greedy loop keeps any upper bound that
held for all validity-interval lengths of the loop state: intervals only
shrink under interval_difference. -/
lemma selectArcs_le_bound (N : ℕ) (hN : 0 < N) (l : List (ℕ × (ℕ × ℕ))) (bound : ℕ)
    (hb : ∀ x ∈ l, ilen N x.2 ≤ bound) :
    ∀ y ∈ selectArcs N l, ilen N y.2 ≤ bound := by
  by_cases hl : l = []
  · rw [selectArcs]; simp [hl]
  · by_cases hmax : (lensOf N l).getD (argmaxIdx (lensOf N l)) 0 ≤ 1
    · rw [selectArcs]; simp only [dif_neg hl, dif_pos hmax]; simp
    · rw [selectArcs]
      simp only [dif_neg hl, dif_neg hmax]
      intro y hy
      rcases List.mem_cons.mp hy with rfl | hm
      · exact hb _ (selOf_mem N l hl)
      · refine selectArcs_le_bound N hN (nextOf N l) bound ?_ y hm
        intro x hx
        obtain ⟨p, hp, rfl⟩ := mem_nextOf N l hx
        exact le_trans (intervalDifference_ilen_le N hN p.2 (selOf N l).2) (hb p hp)
termination_by l.length
decreasing_by exact nextOf_length_lt N l hl (by omega)

/-- The circular lengths of the emitted validity intervals are
non-increasing in selection order: the loop always selects a remaining
interval of maximal length, and intervals only shrink. -/
lemma selectArcs_chain (N : ℕ) (hN : 0 < N) (l : List (ℕ × (ℕ × ℕ))) :
    List.Chain' (fun x y => ilen N y.2 ≤ ilen N x.2) (selectArcs N l) := by
  by_cases hl : l = []
  · rw [selectArcs]; simp [hl]
  · by_cases hmax : (lensOf N l).getD (argmaxIdx (lensOf N l)) 0 ≤ 1
    · rw [selectArcs]; simp only [dif_neg hl, dif_pos hmax]; simp
    · rw [selectArcs]
      simp only [dif_neg hl, dif_neg hmax]
      rw [List.chain'_cons']
      constructor
      · intro b hb
        have hbm : b ∈ selectArcs N (nextOf N l) := by
          cases hh : selectArcs N (nextOf N l) with
          | nil => rw [hh] at hb; cases hb
          | cons c cs =>
            rw [hh] at hb
            simp only [List.head?_cons, Option.mem_def, Option.some.injEq] at hb
            rw [hb]
            exact List.mem_cons_self _ _
        refine selectArcs_le_bound N hN (nextOf N l) (ilen N (selOf N l).2) ?_ b hbm
        intro x hx
        obtain ⟨p, hp, rfl⟩ := mem_nextOf N l hx
        exact le_trans (intervalDifference_ilen_le N hN p.2 (selOf N l).2)
          (ilen_le_selOf N l p hp)
      · exact selectArcs_chain N hN (nextOf N l)
termination_by l.length
decreasing_by exact nextOf_length_lt N l hl (by omega)

/-- As soon as every remaining validity interval has circular length at
most 1 the loop emits nothing. -/
lemma selectArcs_stop (N : ℕ) (l : List (ℕ × (ℕ × ℕ)))
    (h : ∀ x ∈ l, ilen N x.2 ≤ 1) : selectArcs N l = [] := by
  rw [selectArcs]
  by_cases hl : l = []
  · simp [hl]
  · have hmax : (lensOf N l).getD (argmaxIdx (lensOf N l)) 0 ≤ 1 := by
      rw [lensOf_argmax_eq_sel]
      exact h _ (selOf_mem N l hl)
    simp only [dif_neg hl, dif_pos hmax]

/-! ## Sorting (embedding of np.sort / np.argsort) -/

/-- Insert an element into a sorted list, keeping it sorted. -/
def insertLe {α : Type} (le : α → α → Bool) (x : α) : List α → List α
  | [] => [x]
  | y :: ys => if le x y then x :: y :: ys else y :: insertLe le x ys

/-- Insertion sort, the embedding of numpy sorting (the claims never
depend on the tie-breaking order, so stability is irrelevant). -/
def isort {α : Type} (le : α → α → Bool) : List α → List α
  | [] => []
  | x :: xs => insertLe le x (isort le xs)

lemma insertLe_perm {α : Type} (le : α → α → Bool) (x : α) (l : List α) :
    List.Perm (insertLe le x l) (x :: l) := by
  induction l with
  | nil => rfl
  | cons y ys ih =>
    unfold insertLe
    split
    · rfl
    · exact (ih.cons y).trans (List.Perm.swap x y ys)

lemma isort_perm {α : Type} (le : α → α → Bool) (l : List α) :
    List.Perm (isort le l) l := by
  induction l with
  | nil => rfl
  | cons x xs ih => exact (insertLe_perm le x (isort le xs)).trans (ih.cons x)

lemma mem_insertLe {α : Type} (le : α → α → Bool) (x z : α) (l : List α)
    (h : z ∈ insertLe le x l) : z = x ∨ z ∈ l :=
  List.mem_cons.mp ((insertLe_perm le x l).mem_iff.mp h)

lemma insertLe_sorted {α : Type} (le : α → α → Bool)
    (htot : ∀ a b, le a b = true ∨ le b a = true)
    (htrans : ∀ a b c, le a b = true → le b c = true → le a c = true)
    (x : α) (l : List α)
    (hs : l.Pairwise (fun a b => le a b = true)) :
    (insertLe le x l).Pairwise (fun a b => le a b = true) := by
  induction l with
  | nil => simp [insertLe]
  | cons y ys ih =>
    rcases List.pairwise_cons.mp hs with ⟨hy, hys⟩
    unfold insertLe
    split
    · rename_i hxy
      refine List.pairwise_cons.mpr ⟨?_, hs⟩
      intro z hz
      rcases List.mem_cons.mp hz with rfl | hzys
      · exact hxy
      · exact htrans x y z hxy (hy z hzys)
    · rename_i hxy
      refine List.pairwise_cons.mpr ⟨?_, ih hys⟩
      intro z hz
      rcases mem_insertLe le x z ys hz with rfl | hzys
      · rcases htot z y with h | h
        · exact absurd h hxy
        · exact h
      · exact hy z hzys

lemma isort_sorted {α : Type} (le : α → α → Bool)
    (htot : ∀ a b, le a b = true ∨ le b a = true)
    (htrans : ∀ a b c, le a b = true → le b c = true → le a c = true)
    (l : List α) : (isort le l).Pairwise (fun a b => le a b = true) := by
  induction l with
  | nil => simp [isort]
  | cons x xs ih => exact insertLe_sorted le htot htrans x (isort le xs) ih

/-! ## Arcs and the full curve approximation (piece.py) -/

/-- One selected circular-arc segment: its validity interval on the
contour, the fitted circle's center and (signed) radius, and the index
of the originating osculating circle.  The contour reference carried by
the Python ApproximatingArc (segment.py, not under src/) is kept on the
owning Piece instead. -/
structure ApproximatingArc where
  interval : ℕ × ℕ
  center : ℚ × ℚ
  radius : ℚ
  circleIdx : ℕ
  deriving DecidableEq

/-- Build the ApproximatingArc for a selected (circle index, validity
interval) pair, looking up the circle's center and radius, as in
ApproximatingArc(arcs[i][1], contour, centers[arcs[i][0]],
radii[arcs[i][0]], arcs[i][0]). -/
def toArc (radii : List ℚ) (centers : List (ℚ × ℚ)) (p : ℕ × (ℕ × ℕ)) :
    ApproximatingArc :=
  { interval := p.2, center := centers.getD p.1 (0, 0), radius := radii.getD p.1 0
  , circleIdx := p.1 }

/-- approximate_curve_by_circles: run the greedy selection loop
(selectArcs) over the per-circle validity intervals paired with their
indices (np.arange), then emit the arcs sorted ascending by originating
circle index (argsort over the selected circle indices).  The initial
validity intervals are an input here: the source computes them with
get_validity_intervals_split, whose core get_validity_intervals is
collaborator code in contours.py (not under src/), so the claims are
proved for every possible validity-interval array. -/
def approximateCurveByCircles (contour : List (ℚ × ℚ)) (radii : List ℚ)
    (centers : List (ℚ × ℚ)) (validityIntervals : List (ℕ × ℕ)) :
    List ApproximatingArc :=
  (isort (fun a b => decide (a.1 ≤ b.1))
      (selectArcs contour.length validityIntervals.enum)).map
    (toArc radii centers)

/-! ## Splitting points (piece.py, get_splitting_points) -/

/-- np.abs of the difference of two indices. -/
def absDiff (i j : ℕ) : ℕ := max i j - min i j

/-- The while loop of get_splitting_points: take the first remaining
candidate as a new splitting point, then keep only candidates at
absolute index distance at least min_segment_length from it in both
directions around the cycle (np.abs(candidates - new) >= L and
min(new, candidates) + len(radii) - max(new, candidates) >= L).
The candidate list only shrinks when the chosen head is dropped, which
happens exactly when L >= 1; with L = 0 the Python loop never
terminates, modelled here by returning none when no progress is made. -/
def splitSel (N L : ℕ) : List ℕ → List ℕ → Option (List ℕ)
  | [], acc => some acc
  | c :: cs, acc =>
    let kept := (c :: cs).filter (fun q => decide (L ≤ absDiff q c)
      && decide (L ≤ min q c + N - max q c))
    if h : kept.length < (c :: cs).length then splitSel N L kept (acc ++ [c])
    else none
termination_by cand _ => cand.length

/-- get_splitting_points: sort contour indices by ascending |radius|
(np.argsort), keep those with |radius| < 15, greedily select splitting
points with the minimum circular separation, and return them sorted
ascending (np.sort).  none models nontermination of the source's while
loop (possible only when min_segment_length is 0). -/
def getSplittingPoints (radii : List ℚ) (L : ℕ) : Option (List ℕ) :=
  let N := radii.length
  let cand := (isort (fun i j => decide (|radii.getD i 0| ≤ |radii.getD j 0|))
      (List.range N)).filter (fun i => decide (|radii.getD i 0| < 15))
  (splitSel N L cand []).map (fun sel => isort (fun i j => decide (i ≤ j)) sel)

/-! ## Piece, arc filtering and the inter-piece distance matrix (piece.py) -/

/-- The state of a Piece that the claims touch: its (smoothed, cyclic)
contour, its arc segments, and its per-arc descriptor array.  The image
fields and the polygon, produced by external collaborators (skimage,
shapely), play no part in any claim and are omitted.  Descriptor entries
are Python floats, modelled as the rationals those floats are. -/
structure Piece where
  contour : List (ℚ × ℚ)
  segments : List ApproximatingArc
  descriptor : List (List ℚ)
  deriving DecidableEq

/-- Modelled from the spec: len(arc) for an ApproximatingArc
(segment.py, not under src/) is the arc's length along the contour, the
circular length of its validity interval. -/
def arcPointCount (p : Piece) (a : ApproximatingArc) : ℕ :=
  ilen p.contour.length a.interval

/-- Modelled from the spec: ApproximatingArc.contour (segment.py, not
under src/) is the run of contour points covered by the arc's validity
interval, walked circularly from its start. -/
def arcContour (p : Piece) (a : ApproximatingArc) : List (ℚ × ℚ) :=
  (List.range (arcPointCount p a + 1)).map
    (fun k => p.contour.getD ((a.interval.1 + k) % p.contour.length) (0, 0))

/-- The squared Euclidean distance between the contour points at the two
endpoints of an arc's interval: the square of the chord length
np.linalg.norm(contour[interval[0]] - contour[interval[1]]). -/
def chordSq (p : Piece) (a : ApproximatingArc) : ℚ :=
  let u := p.contour.getD a.interval.1 (0, 0)
  let v := p.contour.getD a.interval.2 (0, 0)
  (u.1 - v.1) ^ 2 + (u.2 - v.2) ^ 2

/-- The comparison np.linalg.norm(v) >= m over rationals, written
without the square root: for m ≤ 0 it always holds, otherwise it is
m^2 ≤ |v|^2.  The lemma normGe_iff_sqrt certifies that this Boolean
agrees exactly with m ≤ sqrt(|v|^2) in the reals. -/
def normGe (sq m : ℚ) : Bool := decide (m ≤ 0 ∨ m ^ 2 ≤ sq)

/-- The is_large_enough predicate of Piece.filter_small_arcs: an arc is
kept if its chord is at least min_size, or else if its length along the
contour is at least |radius| * min_angle. -/
def isLargeEnough (p : Piece) (minSize minAngle : ℚ) (a : ApproximatingArc) :
    Bool :=
  if normGe (chordSq p a) minSize then true
  else decide (|a.radius| * minAngle ≤ (arcPointCount p a : ℚ))

/-- Piece.filter_small_arcs(min_size, min_angle): drop the arcs that are
not large enough; if nothing was dropped the piece is returned untouched
(the early return), otherwise the descriptor array is recomputed from
the remaining arcs.  segDesc stands for Piece.segment_descriptor: its
output values are floats obtained through a square root and play no part
in any claim, so the embedding takes the rounded descriptor map as a
parameter. -/
def filterSmallArcs (segDesc : List (ℚ × ℚ) → List ℚ) (p : Piece)
    (minSize minAngle : ℚ) : Piece :=
  let newArcs := p.segments.filter (isLargeEnough p minSize minAngle)
  if newArcs.length = p.segments.length then p
  else { p with
          segments := newArcs
          descriptor := newArcs.map (fun a => segDesc (arcContour p a)) }

/-- Modelled from the spec: points_dist (geometry.py, not under src/) is
the pairwise Euclidean distance matrix between two planar point sets;
one entry. -/
noncomputable def pointsDist (u v : ℚ × ℚ) : ℝ :=
  Real.sqrt (((u.1 - v.1 : ℚ) : ℝ) ^ 2 + ((u.2 - v.2 : ℚ) : ℝ) ^ 2)

/-- The k-th 2-column slice desc[2k : 2k+2] of a descriptor row. -/
def sliceAt (row : List ℚ) (k : ℕ) : ℚ × ℚ :=
  (row.getD (2 * k) 0, row.getD (2 * k + 1) 0)

/-- The success value of Piece.get_distances: entry (i, j) accumulates,
for k below num_vectors, the Euclidean distance between slice k of row i
of the first descriptor and the negated slice num_vectors-1-k of row j
of the second descriptor, and is finally divided by num_vectors. -/
noncomputable def distMatrix (d1 d2 : List (List ℚ)) : List (List ℝ) :=
  let nv := (d1.headD []).length / 2
  d1.map (fun a => d2.map (fun b =>
    (((List.range nv).map (fun k =>
        pointsDist (sliceAt a k) (-(sliceAt b (nv - 1 - k))))).sum) / (nv : ℝ)))

/-- Piece.get_distances(other): dist has one row per arc of self and one
column per arc of other.  When either piece has no arcs its descriptor
np.array([]) is one-dimensional, and the source then crashes with an
IndexError (desc1.shape[1] on the left, desc2[:, ...] slicing on the
right); none models that crash. -/
noncomputable def getDistances (d1 d2 : List (List ℚ)) : Option (List (List ℝ)) :=
  match d1, d2 with
  | [], _ => none
  | _, [] => none
  | _ :: _, _ :: _ => some (distMatrix d1 d2)

/-- get_distances at the Piece level: it reads the two descriptor
arrays. -/
noncomputable def getDistancesP (p q : Piece) : Option (List (List ℝ)) :=
  getDistances p.descriptor q.descriptor

/-! ## Cluster assembly engine (clustering.py)

The engine is generic in the collaborator types it only passes around:
kappa is the piece-id type (str in the source), C the contour payload
(OsculatingCircleDescriptor._contour), P the polygon payload
(shapely polygons), tau the rigid Transformation value (geometry.py,
not under src/).  The collaborator operations are bundled in Ops and the
claims are proved for every instantiation. -/

/-- The slice of OsculatingCircleDescriptor a Cluster reads: its name,
its contour and its polygon. -/
structure Desc (kappa C P : Type) where
  name : kappa
  contour : C
  polygon : P
  deriving DecidableEq

/-- The collaborator operations clustering.py calls:
get_common_contour_length (geometry.py), Transformation compose /
inverse / is_close (geometry.py), Transformation.apply on polygon data
via shapely.transform, and shapely intersection area / area. -/
structure Ops (C P tau : Type) where
  gccl : C → C → ℤ
  compose : tau → tau → tau
  inverse : tau → tau
  isClose : tau → tau → Bool
  applyT : tau → P → P
  interArea : P → P → ℚ
  area : P → ℚ

/-- The errors clustering.py raises (both are bare ValueErrors in the
source, named in the spec's error taxonomy), plus the KeyError that
set.pop() raises on an empty shared-id set in merge. -/
inductive ClusterError where
  | duplicateMember
  | noSharedPiece
  | inconsistentMerge
  deriving DecidableEq

/-- A Cluster's state: the _pieces dict (id -> (descriptor,
transformation)) and the two derived dicts self.descriptors and
self.transformations that __init__ builds from it, plus the
border_length aggregate.  Python dicts are association lists in
insertion order. -/
structure Cluster (kappa C P tau : Type) where
  pieces : List (kappa × Desc kappa C P × tau)
  descriptors : List (kappa × Desc kappa C P)
  transformations : List (kappa × tau)
  borderLength : ℤ
  deriving DecidableEq

/-- The key list of an association list (dict iteration order). -/
def keysOf {kappa α : Type} (l : List (kappa × α)) : List kappa :=
  l.map (fun x => x.1)

/-- Dictionary lookup on an association list (first binding wins, as in
a Python dict, where keys are unique). -/
def alookup {kappa α : Type} [DecidableEq kappa] (k : kappa) :
    List (kappa × α) → Option α
  | [] => none
  | x :: xs => if x.1 = k then some x.2 else alookup k xs

/-- All unordered pairs of a list in iteration order, embedding
itertools.combinations(l, 2). -/
def pairsOf {α : Type} : List α → List (α × α)
  | [] => []
  | x :: xs => (xs.map (fun y => (x, y))) ++ pairsOf xs

/-- The cached border_length computed from scratch on first access: the
sum of get_common_contour_length over all unordered pairs of member
contours. -/
def scratchBorder {kappa C P tau : Type} (G : Ops C P tau)
    (ps : List (kappa × Desc kappa C P × tau)) : ℤ :=
  ((pairsOf (ps.map (fun x => x.2.1.contour))).map
    (fun pq => G.gccl pq.1 pq.2)).sum

/-- Cluster.__init__(pieces): store the pieces dict and derive the
descriptors and transformations dicts from it.  The border_length field
holds the value the lazily cached property would compute. -/
def mkCluster {kappa C P tau : Type} (G : Ops C P tau)
    (ps : List (kappa × Desc kappa C P × tau)) : Cluster kappa C P tau :=
  { pieces := ps
  , descriptors := ps.map (fun x => (x.1, x.2.1))
  , transformations := ps.map (fun x => (x.1, x.2.2))
  , borderLength := scratchBorder G ps }

/-- The successful path of Cluster.add: insert the new binding into all
three dicts, then add to border_length, for every current piece id other
than the new one, the shared contour length of the new piece's contour
with that member's descriptor contour (the for loop over
self.piece_ids reading self.descriptors[key]). -/
def addFn {kappa C P tau : Type} [DecidableEq kappa] (G : Ops C P tau)
    (c : Cluster kappa C P tau) (d : Desc kappa C P) (t : tau) :
    Cluster kappa C P tau :=
  { pieces := c.pieces ++ [(d.name, d, t)]
  , descriptors := c.descriptors ++ [(d.name, d)]
  , transformations := c.transformations ++ [(d.name, t)]
  , borderLength := c.borderLength +
      (((c.descriptors ++ [(d.name, d)]).filter
          (fun x => decide (x.1 ≠ d.name))).map
        (fun x => G.gccl d.contour x.2.contour)).sum }

/-- Cluster.add(descriptor, transformation): if the descriptor's name is
already a member, raise (ValueError in the source, DuplicateMemberError
in the spec's taxonomy) before any state is written, so a failed call
leaves the receiver exactly as it was; otherwise mutate the receiver to
addFn of it. -/
def add {kappa C P tau : Type} [DecidableEq kappa] (G : Ops C P tau)
    (c : Cluster kappa C P tau) (d : Desc kappa C P) (t : tau) :
    Except ClusterError (Cluster kappa C P tau) :=
  if d.name ∈ keysOf c.pieces then Except.error ClusterError.duplicateMember
  else Except.ok (addFn G c d t)

/-- Cluster.transform(transformation): a new cluster built by __init__
from the pieces dict with every member's transformation post-composed
with the given one, with border_length carried over unchanged.  The
receiver is not touched. -/
def transform {kappa C P tau : Type} (G : Ops C P tau)
    (c : Cluster kappa C P tau) (T : tau) : Cluster kappa C P tau :=
  let n := mkCluster G (c.pieces.map (fun x => (x.1, x.2.1, G.compose x.2.2 T)))
  { n with borderLength := c.borderLength }

/-- Cluster.copy(): a new cluster built by __init__ from a copy of the
pieces dict, with border_length carried over. -/
def copy {kappa C P tau : Type} (G : Ops C P tau)
    (c : Cluster kappa C P tau) : Cluster kappa C P tau :=
  let n := mkCluster G c.pieces
  { n with borderLength := c.borderLength }

/-- The member polygons placed in the cluster frame: each descriptor's
polygon transformed by that member's transformation
(shapely.transform(desc._polygon, t.apply)). -/
def clusterPolys {kappa C P tau : Type} (G : Ops C P tau)
    (c : Cluster kappa C P tau) : List P :=
  c.pieces.map (fun x => G.applyT x.2.2 x.2.1.polygon)

/-- Cluster.self_intersection: the maximum over unordered pairs of
transformed member polygons of intersection area over the smaller area.
Python's max([]) raises on a cluster with fewer than two members; none
models that. -/
def selfIntersection {kappa C P tau : Type} (G : Ops C P tau)
    (c : Cluster kappa C P tau) : Option ℚ :=
  ((pairsOf (clusterPolys G c)).map
    (fun pq => G.interArea pq.1 pq.2 / min (G.area pq.1) (G.area pq.2))).max?

/-- self.transformations[key] (keys the caller passes are always
members, so the default is never read under the well-formedness the
theorems assume). -/
def lookupT {kappa C P tau : Type} [DecidableEq kappa] [Inhabited tau]
    (c : Cluster kappa C P tau) (k : kappa) : tau :=
  (alookup k c.transformations).getD default

/-- dict.copy() followed by dict.update(l2): bindings of l1 keep their
position but take l2's value when l2 also binds the key; bindings of l2
with new keys are appended in order. -/
def dictUpdate {kappa α : Type} [DecidableEq kappa]
    (l1 l2 : List (kappa × α)) : List (kappa × α) :=
  (l1.map (fun x =>
    match alookup x.1 l2 with
    | some v => (x.1, v)
    | none => x))
  ++ l2.filter (fun y => (alookup y.1 l1).isNone)

/-- Cluster.merge(other).  The shared ids are the intersection of the
two key sets (kept here in self's insertion order; Python's set.pop
draws an arbitrary one, the embedding draws the first).  With no shared
id, set.pop() raises KeyError.  Otherwise both clusters are re-expressed
in the anchor piece's frame by composing with the inverse of their own
anchor transformation; every other shared id's two anchor-frame
transformations must satisfy is_close, else the merge raises (ValueError
in the source, InconsistentMergeError in the spec's taxonomy).  On
success a fresh cluster is built by __init__ from the updated dict; the
two inputs are not touched. -/
def merge {kappa C P tau : Type} [DecidableEq kappa] [Inhabited tau]
    (G : Ops C P tau) (c1 c2 : Cluster kappa C P tau) :
    Except ClusterError (Cluster kappa C P tau) :=
  match (keysOf c1.pieces).filter (fun k => decide (k ∈ keysOf c2.pieces)) with
  | [] => Except.error ClusterError.noSharedPiece
  | anchor :: rest =>
    let u1 := transform G c1 (G.inverse (lookupT c1 anchor))
    let u2 := transform G c2 (G.inverse (lookupT c2 anchor))
    if rest.all (fun k => G.isClose (lookupT u1 k) (lookupT u2 k)) then
      Except.ok (mkCluster G (dictUpdate u1.pieces u2.pieces))
    else Except.error ClusterError.inconsistentMerge

/-- The well-formedness every Cluster enjoys in Python: dict keys are
unique, and the descriptors and transformations dicts are the
projections of the pieces dict. -/
def WF {kappa C P tau : Type} (c : Cluster kappa C P tau) : Prop :=
  (keysOf c.pieces).Nodup
  ∧ c.descriptors = c.pieces.map (fun x => (x.1, x.2.1))
  ∧ c.transformations = c.pieces.map (fun x => (x.1, x.2.2))

/-- The clusters reachable through the public operations: construction
from a pieces mapping (a dict, so keys unique), successful add,
transform, successful merge, and copy. -/
inductive Reachable {kappa C P tau : Type} [DecidableEq kappa] [Inhabited tau]
    (G : Ops C P tau) : Cluster kappa C P tau → Prop where
  | init (ps : List (kappa × Desc kappa C P × tau)) (h : (keysOf ps).Nodup) :
      Reachable G (mkCluster G ps)
  | addMember {c c' : Cluster kappa C P tau} {d : Desc kappa C P} {t : tau} :
      Reachable G c → add G c d t = Except.ok c' → Reachable G c'
  | transformed {c : Cluster kappa C P tau} (T : tau) :
      Reachable G c → Reachable G (transform G c T)
  | merged {c d e : Cluster kappa C P tau} :
      Reachable G c → Reachable G d → merge G c d = Except.ok e → Reachable G e
  | copied {c : Cluster kappa C P tau} :
      Reachable G c → Reachable G (copy G c)

/-! ## Association-list lemmas -/

lemma keysOf_map {kappa β γ : Type} (l : List (kappa × β)) (f : kappa × β → γ) :
    keysOf (l.map (fun x => (x.1, f x))) = keysOf l := by
  unfold keysOf
  rw [List.map_map]
  rfl

lemma alookup_map {kappa β γ : Type} [DecidableEq kappa]
    (l : List (kappa × β)) (f : kappa × β → γ) (k : kappa) :
    alookup k (l.map (fun x => (x.1, f x))) = (alookup k l).map (fun v => f (k, v)) := by
  induction l with
  | nil => simp [alookup]
  | cons x xs ih =>
    by_cases hk : x.1 = k
    · subst hk
      simp [alookup, ih]
    · simp [alookup, hk, ih]

lemma alookup_eq_none {kappa β : Type} [DecidableEq kappa]
    (l : List (kappa × β)) (k : kappa) :
    alookup k l = none ↔ k ∉ keysOf l := by
  induction l with
  | nil => simp [alookup, keysOf]
  | cons x xs ih =>
    by_cases hk : x.1 = k
    · subst hk
      simp [alookup, keysOf]
    · unfold keysOf at ih ⊢
      simp only [List.map_cons, List.mem_cons]
      rw [alookup, if_neg hk, ih]
      constructor
      · intro h hc
        rcases hc with hc | hc
        · exact hk hc.symm
        · exact h hc
      · intro h hc
        exact h (Or.inr hc)

lemma alookup_of_mem {kappa β : Type} [DecidableEq kappa]
    {l : List (kappa × β)} (hnd : (keysOf l).Nodup) {x : kappa × β}
    (hx : x ∈ l) : alookup x.1 l = some x.2 := by
  induction l with
  | nil => cases hx
  | cons y ys ih =>
    rcases List.mem_cons.mp hx with rfl | hm
    · simp [alookup]
    · have hnd' : (keysOf ys).Nodup := (List.pairwise_cons.mp hnd).2
      have hy : y.1 ≠ x.1 := by
        intro he
        have hxk : x.1 ∈ keysOf ys := List.mem_map.mpr ⟨x, hm, rfl⟩
        exact (List.pairwise_cons.mp hnd).1 x.1 hxk he
      simp [alookup, hy, ih hnd' hm]

lemma mem_of_alookup {kappa β : Type} [DecidableEq kappa]
    {l : List (kappa × β)} {k : kappa} {v : β}
    (h : alookup k l = some v) : (k, v) ∈ l := by
  induction l with
  | nil => simp [alookup] at h
  | cons y ys ih =>
    by_cases hk : y.1 = k
    · subst hk
      simp [alookup] at h
      subst h
      exact List.mem_cons_self _ _
    · simp [alookup, hk] at h
      exact List.mem_cons_of_mem _ (ih h)

lemma alookup_append_left {kappa β : Type} [DecidableEq kappa]
    (l1 l2 : List (kappa × β)) (k : kappa) (hk : k ∈ keysOf l1) :
    alookup k (l1 ++ l2) = alookup k l1 := by
  induction l1 with
  | nil => simp [keysOf] at hk
  | cons x xs ih =>
    by_cases he : x.1 = k
    · simp [alookup, he]
    · have hk' : k ∈ keysOf xs := by
        rcases List.mem_map.mp hk with ⟨y, hy, hyk⟩
        rcases List.mem_cons.mp hy with rfl | hm
        · exact absurd hyk he
        · exact List.mem_map.mpr ⟨y, hm, hyk⟩
      simp [alookup, he, ih hk']

lemma dictUpdate_self {kappa β : Type} [DecidableEq kappa]
    (l : List (kappa × β)) (hnd : (keysOf l).Nodup) : dictUpdate l l = l := by
  unfold dictUpdate
  have h1 : l.map (fun x =>
      match alookup x.1 l with
      | some v => (x.1, v)
      | none => x) = l := by
    have hcong : ∀ x ∈ l, (match alookup x.1 l with
        | some v => (x.1, v)
        | none => x) = x := by
      intro x hx
      rw [alookup_of_mem hnd hx]
    calc l.map (fun x =>
          match alookup x.1 l with
          | some v => (x.1, v)
          | none => x) = l.map id := List.map_congr_left hcong
      _ = l := List.map_id l
  have h2 : l.filter (fun y => (alookup y.1 l).isNone) = [] := by
    rw [List.filter_eq_nil_iff]
    intro y hy
    rw [alookup_of_mem hnd hy]
    simp
  rw [h1, h2, List.append_nil]

/-! ## Support lemmas for the piece claims -/

/-- The Boolean norm comparison of the embedding agrees exactly with the
real-number comparison min_size ≤ sqrt(squared chord) the source
computes through np.linalg.norm. -/
lemma normGe_iff_sqrt (sq m : ℚ) (hsq : 0 ≤ sq) :
    normGe sq m = true ↔ (m : ℝ) ≤ Real.sqrt ((sq : ℚ) : ℝ) := by
  unfold normGe
  rw [decide_eq_true_eq]
  constructor
  · rintro (hm | hm)
    · exact le_trans (by exact_mod_cast hm) (Real.sqrt_nonneg _)
    · rcases le_or_lt m 0 with hm0 | hm0
      · exact le_trans (by exact_mod_cast hm0) (Real.sqrt_nonneg _)
      · rw [Real.le_sqrt (by exact_mod_cast hm0.le) (by exact_mod_cast hsq)]
        exact_mod_cast hm
  · intro h
    rcases le_or_lt m 0 with hm0 | hm0
    · exact Or.inl hm0
    · refine Or.inr ?_
      have h2 := (Real.le_sqrt (x := (m : ℝ)) (y := ((sq : ℚ) : ℝ))
        (by exact_mod_cast hm0.le) (by exact_mod_cast hsq)).mp h
      exact_mod_cast h2

lemma chordSq_nonneg (p : Piece) (a : ApproximatingArc) : 0 ≤ chordSq p a := by
  unfold chordSq
  positivity

/-- The two separation conditions the splitting-point loop enforces
between a kept candidate q and the newly selected point c. -/
def sepOK (N L a b : ℕ) : Prop :=
  L ≤ absDiff a b ∧ L ≤ min a b + N - max a b

lemma sepOK_symm {N L a b : ℕ} (h : sepOK N L a b) : sepOK N L b a := by
  unfold sepOK absDiff at h ⊢
  omega

lemma splitSel_isSome (N L : ℕ) (hL : 1 ≤ L) : (cand acc : List ℕ) →
    (splitSel N L cand acc).isSome = true
  | [], acc => by simp [splitSel]
  | c :: cs, acc => by
    unfold splitSel
    have hpc : (fun q => decide (L ≤ absDiff q c)
        && decide (L ≤ min q c + N - max q c)) c = false := by
      have h0 : absDiff c c = 0 := by unfold absDiff; omega
      simp only [h0, Bool.and_eq_false_iff, decide_eq_false_iff_not]
      left
      omega
    have hlt : ((c :: cs).filter (fun q => decide (L ≤ absDiff q c)
        && decide (L ≤ min q c + N - max q c))).length < (c :: cs).length :=
      length_filter_lt _ _ c (List.mem_cons_self _ _) hpc
    rw [dif_pos hlt]
    exact splitSel_isSome N L hL _ (acc ++ [c])
termination_by cand _ => cand.length
decreasing_by exact hlt

lemma splitSel_sound (N L : ℕ) : (cand acc out : List ℕ) →
    splitSel N L cand acc = some out →
    (∀ x ∈ out, x ∈ acc ∨ x ∈ cand)
    ∧ ((∀ a ∈ acc, ∀ b ∈ acc, a ≠ b → sepOK N L a b) →
       (∀ q ∈ cand, ∀ a ∈ acc, sepOK N L q a) →
       ∀ a ∈ out, ∀ b ∈ out, a ≠ b → sepOK N L a b)
  | [], acc, out, h => by
    simp only [splitSel, Option.some.injEq] at h
    subst h
    exact ⟨fun x hx => Or.inl hx, fun h1 _ => h1⟩
  | c :: cs, acc, out, h => by
    simp only [splitSel] at h
    split at h
    · rename_i hlt
      have IH := splitSel_sound N L _ (acc ++ [c]) out h
      constructor
      · intro x hx
        rcases IH.1 x hx with hia | hik
        · rcases List.mem_append.mp hia with hia | hic
          · exact Or.inl hia
          · exact Or.inr (by
              simp only [List.mem_singleton] at hic
              exact hic ▸ List.mem_cons_self _ _)
        · exact Or.inr (List.mem_of_mem_filter hik)
      · intro H1 H2
        refine IH.2 ?_ ?_
        · intro a ha b hb hne
          rcases List.mem_append.mp ha with ha1 | ha2
          · rcases List.mem_append.mp hb with hb1 | hb2
            · exact H1 a ha1 b hb1 hne
            · have hbc : b = c := by simpa using hb2
              rw [hbc]
              exact sepOK_symm (H2 c (List.mem_cons_self _ _) a ha1)
          · have hac : a = c := by simpa using ha2
            rcases List.mem_append.mp hb with hb1 | hb2
            · rw [hac]
              exact H2 c (List.mem_cons_self _ _) b hb1
            · have hbc : b = c := by simpa using hb2
              rw [hac, hbc] at hne
              exact absurd rfl hne
        · intro q hq a ha
          rcases List.mem_append.mp ha with ha1 | ha2
          · exact H2 q (List.mem_of_mem_filter hq) a ha1
          · have hac : a = c := by simpa using ha2
            rw [hac]
            have hcond := List.of_mem_filter hq
            simp only [Bool.and_eq_true, decide_eq_true_eq] at hcond
            exact ⟨hcond.1, hcond.2⟩
    · exact absurd h (by simp)
termination_by cand _ _ _ => cand.length
decreasing_by rename_i hlt2 ; exact hlt2

/-! ## Support lemmas for the cluster claims -/

lemma alookup_isSome_of_mem_keys {kappa β : Type} [DecidableEq kappa]
    {l : List (kappa × β)} {k : kappa} (hk : k ∈ keysOf l) :
    ∃ v, alookup k l = some v := by
  cases h : alookup k l with
  | none => exact absurd ((alookup_eq_none l k).mp h) (by simpa using hk)
  | some v => exact ⟨v, rfl⟩

lemma transform_pieces {kappa C P tau : Type} (G : Ops C P tau)
    (c : Cluster kappa C P tau) (T : tau) :
    (transform G c T).pieces
      = c.pieces.map (fun x => (x.1, x.2.1, G.compose x.2.2 T)) := rfl

lemma transform_keys {kappa C P tau : Type} (G : Ops C P tau)
    (c : Cluster kappa C P tau) (T : tau) :
    keysOf (transform G c T).pieces = keysOf c.pieces := by
  rw [transform_pieces]
  exact keysOf_map c.pieces (fun x => (x.2.1, G.compose x.2.2 T))

lemma transform_transformations {kappa C P tau : Type} (G : Ops C P tau)
    (c : Cluster kappa C P tau) (T : tau) (hwf : WF c) :
    (transform G c T).transformations
      = c.transformations.map (fun x => (x.1, G.compose x.2 T)) := by
  have h1 : (transform G c T).transformations
      = c.pieces.map (fun x => (x.1, G.compose x.2.2 T)) := by
    show (c.pieces.map (fun x => (x.1, x.2.1, G.compose x.2.2 T))).map
        (fun x => (x.1, x.2.2)) = _
    rw [List.map_map]
    rfl
  rw [h1, hwf.2.2, List.map_map]
  rfl

lemma transform_borderLength {kappa C P tau : Type} (G : Ops C P tau)
    (c : Cluster kappa C P tau) (T : tau) :
    (transform G c T).borderLength = c.borderLength := rfl

lemma lookupT_transform {kappa C P tau : Type} [DecidableEq kappa]
    [Inhabited tau] (G : Ops C P tau) (c : Cluster kappa C P tau) (T : tau)
    (k : kappa) (hwf : WF c) (hk : k ∈ keysOf c.pieces) :
    lookupT (transform G c T) k = G.compose (lookupT c k) T := by
  obtain ⟨pr, hpr⟩ := alookup_isSome_of_mem_keys (l := c.pieces)
    (k := k) hk
  have h1 : alookup k (transform G c T).transformations
      = some (G.compose pr.2 T) := by
    rw [transform_transformations G c T hwf, hwf.2.2, List.map_map]
    have hshape : alookup k (c.pieces.map (fun x => (x.1, G.compose x.2.2 T)))
        = (alookup k c.pieces).map (fun v => G.compose v.2 T) :=
      alookup_map c.pieces (fun x => G.compose x.2.2 T) k
    calc alookup k (c.pieces.map
          ((fun x => (x.1, G.compose x.2 T)) ∘ fun x => (x.1, x.2.2)))
        = alookup k (c.pieces.map (fun x => (x.1, G.compose x.2.2 T))) := rfl
      _ = (alookup k c.pieces).map (fun v => G.compose v.2 T) := hshape
      _ = some (G.compose pr.2 T) := by rw [hpr]; rfl
  have h2 : alookup k c.transformations = some pr.2 := by
    rw [hwf.2.2]
    have hshape : alookup k (c.pieces.map (fun x => (x.1, x.2.2)))
        = (alookup k c.pieces).map (fun v => v.2) :=
      alookup_map c.pieces (fun x => x.2.2) k
    rw [hshape, hpr]
    rfl
  unfold lookupT
  rw [h1, h2]
  rfl

lemma dictUpdate_keys {kappa β : Type} [DecidableEq kappa]
    (l1 l2 : List (kappa × β)) :
    keysOf (dictUpdate l1 l2)
      = keysOf l1 ++ keysOf (l2.filter (fun y => (alookup y.1 l1).isNone)) := by
  unfold dictUpdate keysOf
  rw [List.map_append, List.map_map]
  congr 1
  apply List.map_congr_left
  intro x hx
  cases h : alookup x.1 l2 <;> simp [h]

lemma dictUpdate_keys_nodup {kappa β : Type} [DecidableEq kappa]
    (l1 l2 : List (kappa × β)) (h1 : (keysOf l1).Nodup) (h2 : (keysOf l2).Nodup) :
    (keysOf (dictUpdate l1 l2)).Nodup := by
  rw [dictUpdate_keys]
  rw [List.nodup_append]
  refine ⟨h1, ?_, ?_⟩
  · have hsub : List.Sublist (l2.filter (fun y => (alookup y.1 l1).isNone)) l2 :=
      List.filter_sublist l2
    have hsub2 := hsub.map (fun x : kappa × β => x.1)
    exact List.Nodup.sublist hsub2 h2
  · intro k hk1 hk2
    rcases List.mem_map.mp hk2 with ⟨y, hy, hyk⟩
    have hnone := List.of_mem_filter hy
    rw [Option.isNone_iff_eq_none] at hnone
    have := (alookup_eq_none l1 y.1).mp hnone
    exact this (hyk ▸ hk1)

lemma pairsOf_map {α β : Type} (f : α → β) (l : List α) :
    pairsOf (l.map f) = (pairsOf l).map (fun pq => (f pq.1, f pq.2)) := by
  induction l with
  | nil => rfl
  | cons x xs ih =>
    simp only [List.map_cons, pairsOf, ih, List.map_append, List.map_map]
    rfl

/-- Every cluster the public operations can build satisfies WF: keys are
unique and the derived dicts are projections of the pieces dict. -/
lemma reachable_wf {kappa C P tau : Type} [DecidableEq kappa] [Inhabited tau]
    (G : Ops C P tau) (c : Cluster kappa C P tau)
    (h : Reachable G c) : WF c := by
  induction h with
  | init ps hnd => exact ⟨hnd, rfl, rfl⟩
  | addMember hre hok ih =>
    rename_i c0 c' d t
    unfold add at hok
    split_ifs at hok with hdup
    simp only [Except.ok.injEq] at hok
    subst hok
    refine ⟨?_, ?_, ?_⟩
    · show (keysOf (c0.pieces ++ [(d.name, d, t)])).Nodup
      unfold keysOf
      rw [List.map_append]
      rw [List.nodup_append]
      refine ⟨ih.1, by simp, ?_⟩
      intro k hk1 hk2
      simp only [List.map_cons, List.map_nil, List.mem_singleton] at hk2
      exact hdup (hk2 ▸ hk1)
    · show c0.descriptors ++ [(d.name, d)]
        = (c0.pieces ++ [(d.name, d, t)]).map (fun x => (x.1, x.2.1))
      rw [List.map_append, ih.2.1]
      rfl
    · show c0.transformations ++ [(d.name, t)]
        = (c0.pieces ++ [(d.name, d, t)]).map (fun x => (x.1, x.2.2))
      rw [List.map_append, ih.2.2]
      rfl
  | transformed T hre ih =>
    rename_i c0
    refine ⟨?_, rfl, rfl⟩
    rw [transform_keys]
    exact ih.1
  | merged hrc hrd hok ihc ihd =>
    rename_i c0 d0 e0
    unfold merge at hok
    split at hok
    · exact absurd hok (by simp)
    · rename_i anchor rest hfl
      simp only [] at hok
      split_ifs at hok with hcl
      simp only [Except.ok.injEq] at hok
      subst hok
      refine ⟨?_, rfl, rfl⟩
      show (keysOf (dictUpdate
        (transform G c0 (G.inverse (lookupT c0 anchor))).pieces
        (transform G d0 (G.inverse (lookupT d0 anchor))).pieces)).Nodup
      apply dictUpdate_keys_nodup
      · rw [transform_keys]; exact ihc.1
      · rw [transform_keys]; exact ihd.1
  | copied hre ih =>
    exact ⟨ih.1, rfl, rfl⟩

/-! ## Concrete instantiation used by the witnesses -/

/-- A concrete instantiation of the collaborator operations for the
witnesses: contours, polygons and transformations are integers,
composition is addition, inversion is negation, approximate equality is
exact equality, and polygons are inert. -/
def intOps : Ops ℤ ℤ ℤ where
  gccl x y := x + y
  compose a b := a + b
  inverse a := -a
  isClose a b := decide (a = b)
  applyT _ p := p
  interArea _ _ := 0
  area _ := 1

def dA : Desc ℕ ℤ ℤ := ⟨0, 2, 0⟩

def dB : Desc ℕ ℤ ℤ := ⟨1, 3, 0⟩

def dC : Desc ℕ ℤ ℤ := ⟨2, 5, 0⟩

def cW : Cluster ℕ ℤ ℤ ℤ := mkCluster intOps [(0, dA, 5), (1, dB, 7)]

def cV : Cluster ℕ ℤ ℤ ℤ := mkCluster intOps [(2, dC, 9)]

def cX : Cluster ℕ ℤ ℤ ℤ := mkCluster intOps [(0, dA, 3), (1, dB, 4)]

def cY : Cluster ℕ ℤ ℤ ℤ := mkCluster intOps [(0, dA, 3), (1, dB, 9)]

def arc1 : ApproximatingArc := ⟨(0, 1), (0, 0), 1, 0⟩

def pW : Piece := ⟨[(0, 0), (3, 0)], [arc1], [[1]]⟩

def pD : Piece := ⟨[], [arc1], [[1, 2]]⟩

def emptyPiece : Piece := ⟨[], [], []⟩

def contour3 : List (ℚ × ℚ) := [(0, 0), (0, 1), (1, 0)]

/-! ## The claims -/

/-- C1: for every cluster C and every piece (P, T) whose id is not
already a member, Cluster.add succeeds and increases border_length by
exactly the sum, over every piece Q that was a member before the call,
of the collaborator-supplied shared contour length of P with Q.  The add
loop is the incremental update of the source (one term per existing
member), not a recomputation over all pairs: addFn's border term is the
loop's sum, and this theorem reduces it to the sum over the prior
members. -/
theorem cluster_add_border_increment {kappa C P tau : Type} [DecidableEq kappa]
    (G : Ops C P tau) (c : Cluster kappa C P tau) (d : Desc kappa C P) (t : tau)
    (hwf : WF c) (hnew : d.name ∉ keysOf c.pieces) :
    add G c d t = Except.ok (addFn G c d t)
    ∧ (addFn G c d t).borderLength
        = c.borderLength
          + (c.descriptors.map (fun x => G.gccl d.contour x.2.contour)).sum := by
  constructor
  · unfold add
    rw [if_neg hnew]
  · show c.borderLength + (((c.descriptors ++ [(d.name, d)]).filter
        (fun x => decide (x.1 ≠ d.name))).map
        (fun x => G.gccl d.contour x.2.contour)).sum = _
    congr 2
    rw [List.filter_append]
    have h2 : ([(d.name, d)].filter (fun x => decide (x.1 ≠ d.name))) = [] := by
      simp
    rw [h2, List.append_nil]
    rw [List.filter_eq_self.mpr]
    intro x hx
    have hk : x.1 ∈ keysOf c.pieces := by
      rw [hwf.2.1] at hx
      rcases List.mem_map.mp hx with ⟨y, hy, hyx⟩
      have : x.1 = y.1 := by rw [← hyx]
      rw [this]
      exact List.mem_map.mpr ⟨y, hy, rfl⟩
    exact decide_eq_true (fun he => hnew (he ▸ hk))

/-- C3: adding a piece whose id is already a member raises
(DuplicateMemberError in the spec's taxonomy) and leaves the cluster
unchanged: the source checks membership and raises before writing to any
of the three dicts or to border_length, which the embedding renders as
an error return carrying no new state. -/
theorem cluster_add_duplicate {kappa C P tau : Type} [DecidableEq kappa]
    (G : Ops C P tau) (c : Cluster kappa C P tau) (d : Desc kappa C P) (t : tau)
    (hdup : d.name ∈ keysOf c.pieces) :
    add G c d t = Except.error ClusterError.duplicateMember := by
  unfold add
  rw [if_pos hdup]

/-- C4: transform returns a new cluster with the same member set, every
member's transformation post-composed with the given transformation, and
border_length carried over unchanged; self_intersection is also
unchanged provided the collaborator geometry respects rigid motions
(apply distributes over compose, and intersection areas and areas are
invariant under the applied motion).  The receiver is a pure input: the
source builds a fresh Cluster and never writes to self. -/
theorem cluster_transform_spec {kappa C P tau : Type} [DecidableEq kappa]
    (G : Ops C P tau) (c : Cluster kappa C P tau) (T : tau) (hwf : WF c)
    (H1 : ∀ t u p, G.applyT (G.compose t u) p = G.applyT u (G.applyT t p))
    (H2 : ∀ p q, G.interArea (G.applyT T p) (G.applyT T q) = G.interArea p q)
    (H3 : ∀ p, G.area (G.applyT T p) = G.area p) :
    keysOf (transform G c T).pieces = keysOf c.pieces
    ∧ (transform G c T).transformations
        = c.transformations.map (fun x => (x.1, G.compose x.2 T))
    ∧ (transform G c T).borderLength = c.borderLength
    ∧ selfIntersection G (transform G c T) = selfIntersection G c := by
  refine ⟨transform_keys G c T, transform_transformations G c T hwf, rfl, ?_⟩
  have hpolys : clusterPolys G (transform G c T)
      = (clusterPolys G c).map (G.applyT T) := by
    unfold clusterPolys
    rw [transform_pieces, List.map_map, List.map_map]
    apply List.map_congr_left
    intro x hx
    exact H1 x.2.2 T x.2.1.polygon
  unfold selfIntersection
  rw [hpolys, pairsOf_map, List.map_map]
  congr 1
  apply List.map_congr_left
  intro pq hpq
  show G.interArea (G.applyT T pq.1) (G.applyT T pq.2)
      / min (G.area (G.applyT T pq.1)) (G.area (G.applyT T pq.2)) = _
  rw [H2, H3, H3]

/-- C9: every cluster reachable through the public operations keeps its
three internal maps consistent: the key lists of descriptors and
transformations equal the key list of _pieces, and for every key the
pair stored in _pieces is exactly the (descriptors entry,
transformations entry) for that key. -/
theorem cluster_reachable_consistent {kappa C P tau : Type}
    [DecidableEq kappa] [Inhabited tau]
    (G : Ops C P tau) (c : Cluster kappa C P tau) (h : Reachable G c) :
    keysOf c.descriptors = keysOf c.pieces
    ∧ keysOf c.transformations = keysOf c.pieces
    ∧ ∀ (k : kappa) (d : Desc kappa C P) (t : tau),
        alookup k c.pieces = some (d, t)
          ↔ (alookup k c.descriptors = some d
             ∧ alookup k c.transformations = some t) := by
  have hwf := reachable_wf G c h
  refine ⟨?_, ?_, ?_⟩
  · rw [hwf.2.1]
    exact keysOf_map _ _
  · rw [hwf.2.2]
    exact keysOf_map _ _
  · intro k d t
    rw [hwf.2.1, hwf.2.2]
    rw [alookup_map c.pieces (fun x => x.2.1) k,
      alookup_map c.pieces (fun x => x.2.2) k]
    constructor
    · intro hp
      rw [hp]
      exact ⟨rfl, rfl⟩
    · rintro ⟨h1, h2⟩
      rcases Option.map_eq_some'.mp h1 with ⟨pr, hpr, hprd⟩
      rcases Option.map_eq_some'.mp h2 with ⟨pr2, hpr2, hprt⟩
      rw [hpr] at hpr2
      have hpp : pr = pr2 := by
        injection hpr2
      rw [hpr]
      have hd : pr.1 = d := hprd
      have ht : pr.2 = t := by
        rw [hpp]
        exact hprt
      rw [← hd, ← ht]

/-- C2: merge fails when the two clusters share no piece id (set.pop on
the empty intersection raises KeyError), and when some shared non-anchor
id's transformations, re-expressed in the anchor piece's frame by
composing with the inverse anchor transformation of each side, are not
is_close, merge raises (ValueError in the source, InconsistentMergeError
in the spec's taxonomy) and produces no result cluster.  Both inputs are
pure arguments: the source only reads them (transform returns fresh
clusters), so a failed merge leaves them unchanged.  The anchor is the
first shared id in self's insertion order (Python draws an arbitrary one
from the set; rest then lists the remaining shared ids). -/
theorem cluster_merge_failure_spec {kappa C P tau : Type} [DecidableEq kappa]
    [Inhabited tau] (G : Ops C P tau) (c1 c2 : Cluster kappa C P tau)
    (hwf1 : WF c1) (hwf2 : WF c2) :
    ((∀ k ∈ keysOf c1.pieces, k ∉ keysOf c2.pieces) →
      merge G c1 c2 = Except.error ClusterError.noSharedPiece)
    ∧ (∀ (anchor : kappa) (rest : List kappa),
        (keysOf c1.pieces).filter (fun k => decide (k ∈ keysOf c2.pieces))
          = anchor :: rest →
        (∃ k ∈ rest, G.isClose
            (G.compose (lookupT c1 k) (G.inverse (lookupT c1 anchor)))
            (G.compose (lookupT c2 k) (G.inverse (lookupT c2 anchor))) = false) →
        merge G c1 c2 = Except.error ClusterError.inconsistentMerge) := by
  constructor
  · intro hdisj
    have hfe : (keysOf c1.pieces).filter
        (fun k => decide (k ∈ keysOf c2.pieces)) = [] := by
      rw [List.filter_eq_nil_iff]
      intro k hk
      simp only [decide_eq_true_eq]
      exact hdisj k hk
    unfold merge
    rw [hfe]
  · rintro anchor rest hfl ⟨k, hk, hbad⟩
    have hkmem : k ∈ (keysOf c1.pieces).filter
        (fun q => decide (q ∈ keysOf c2.pieces)) := by
      rw [hfl]
      exact List.mem_cons_of_mem _ hk
    have hk1 : k ∈ keysOf c1.pieces := List.mem_of_mem_filter hkmem
    have hk2 : k ∈ keysOf c2.pieces := by
      have := List.of_mem_filter hkmem
      simpa using this
    unfold merge
    rw [hfl]
    simp only []
    have hck : G.isClose
        (lookupT (transform G c1 (G.inverse (lookupT c1 anchor))) k)
        (lookupT (transform G c2 (G.inverse (lookupT c2 anchor))) k) = false := by
      rw [lookupT_transform G c1 _ k hwf1 hk1,
        lookupT_transform G c2 _ k hwf2 hk2]
      exact hbad
    have hall : (rest.all (fun q => G.isClose
        (lookupT (transform G c1 (G.inverse (lookupT c1 anchor))) q)
        (lookupT (transform G c2 (G.inverse (lookupT c2 anchor))) q))) ≠ true := by
      intro htrue
      have := List.all_eq_true.mp htrue k hk
      rw [hck] at this
      cases this
    rw [if_neg hall]

/-- C7: merging a nonempty cluster with itself succeeds (every id is
shared; each consistency check compares a transformation with itself,
and is_close is reflexive), and the result has the same member set with
every transformation re-expressed relative to the chosen anchor's frame:
composed with the inverse of the anchor's transformation. -/
theorem cluster_merge_self_spec {kappa C P tau : Type} [DecidableEq kappa]
    [Inhabited tau] (G : Ops C P tau) (c : Cluster kappa C P tau)
    (hwf : WF c) (hne : c.pieces ≠ [])
    (hrefl : ∀ t : tau, G.isClose t t = true) :
    ∃ anchor ∈ keysOf c.pieces,
      merge G c c = Except.ok (mkCluster G
        ((transform G c (G.inverse (lookupT c anchor))).pieces))
      ∧ keysOf (mkCluster G
          ((transform G c (G.inverse (lookupT c anchor))).pieces)).pieces
          = keysOf c.pieces
      ∧ (mkCluster G
          ((transform G c (G.inverse (lookupT c anchor))).pieces)).transformations
          = c.transformations.map
              (fun x => (x.1, G.compose x.2 (G.inverse (lookupT c anchor)))) := by
  have hfl : (keysOf c.pieces).filter
      (fun k => decide (k ∈ keysOf c.pieces)) = keysOf c.pieces := by
    rw [List.filter_eq_self]
    intro k hk
    simpa using hk
  have hkeysne : keysOf c.pieces ≠ [] := by
    intro he
    exact hne (by simpa [keysOf] using he)
  obtain ⟨k0, rest, hk0⟩ := List.exists_cons_of_ne_nil hkeysne
  refine ⟨k0, by rw [hk0]; exact List.mem_cons_self _ _, ?_, ?_, ?_⟩
  · unfold merge
    rw [hfl, hk0]
    simp only []
    have hall : (rest.all (fun q => G.isClose
        (lookupT (transform G c (G.inverse (lookupT c k0))) q)
        (lookupT (transform G c (G.inverse (lookupT c k0))) q))) = true :=
      List.all_eq_true.mpr (fun q hq => hrefl _)
    rw [if_pos hall]
    have hnd : (keysOf (transform G c (G.inverse (lookupT c k0))).pieces).Nodup := by
      rw [transform_keys]
      exact hwf.1
    rw [dictUpdate_self _ hnd]
  · rw [show (mkCluster G
        ((transform G c (G.inverse (lookupT c k0))).pieces)).pieces
        = (transform G c (G.inverse (lookupT c k0))).pieces from rfl]
    exact transform_keys G c _
  · rw [show (mkCluster G
        ((transform G c (G.inverse (lookupT c k0))).pieces)).transformations
        = (transform G c (G.inverse (lookupT c k0))).transformations from rfl]
    exact transform_transformations G c _ hwf

/-- C5: approximate_curve_by_circles repeatedly selects the circle whose
current validity interval is longest and stops as soon as that longest
circular length is at most 1: every emitted arc's interval length
exceeds 1, the interval lengths are non-increasing in selection order
(intervals only shrink, and the maximum is always taken), nothing at all
is emitted once every length is at most 1, and the returned list is the
selection reordered ascending by originating-circle contour index, not
selection order. -/
theorem approx_curve_by_circles_spec (contour : List (ℚ × ℚ)) (radii : List ℚ)
    (centers : List (ℚ × ℚ)) (ivs : List (ℕ × ℕ)) (hN : 0 < contour.length) :
    ((approximateCurveByCircles contour radii centers ivs).map
        (fun a => a.circleIdx)).Pairwise (· ≤ ·)
    ∧ (∀ a ∈ approximateCurveByCircles contour radii centers ivs,
        1 < ilen contour.length a.interval)
    ∧ List.Perm (approximateCurveByCircles contour radii centers ivs)
        ((selectArcs contour.length ivs.enum).map (toArc radii centers))
    ∧ List.Chain'
        (fun a b => ilen contour.length b.interval ≤ ilen contour.length a.interval)
        ((selectArcs contour.length ivs.enum).map (toArc radii centers))
    ∧ ((∀ q ∈ ivs.enum, ilen contour.length q.2 ≤ 1) →
        approximateCurveByCircles contour radii centers ivs = []) := by
  have htot : ∀ a b : ℕ × (ℕ × ℕ),
      (fun a b => decide (a.1 ≤ b.1)) a b = true
      ∨ (fun a b => decide (a.1 ≤ b.1)) b a = true := by
    intro a b
    rcases Nat.le_total a.1 b.1 with h | h <;> simp [h]
  have htrans : ∀ a b c : ℕ × (ℕ × ℕ),
      (fun a b => decide (a.1 ≤ b.1)) a b = true →
      (fun a b => decide (a.1 ≤ b.1)) b c = true →
      (fun a b => decide (a.1 ≤ b.1)) a c = true := by
    intro a b c h1 h2
    simp only [decide_eq_true_eq] at h1 h2 ⊢
    exact le_trans h1 h2
  refine ⟨?_, ?_, ?_, ?_, ?_⟩
  · unfold approximateCurveByCircles
    rw [List.map_map]
    rw [List.pairwise_map]
    have hs := isort_sorted (fun a b => decide (a.1 ≤ b.1)) htot htrans
      (selectArcs contour.length ivs.enum)
    exact hs.imp (fun h => by simpa using h)
  · intro a ha
    unfold approximateCurveByCircles at ha
    rcases List.mem_map.mp ha with ⟨q, hq, rfl⟩
    have hq2 : q ∈ selectArcs contour.length ivs.enum :=
      (isort_perm _ _).mem_iff.mp hq
    exact selectArcs_gt_one contour.length ivs.enum q hq2
  · unfold approximateCurveByCircles
    exact (isort_perm _ _).map (toArc radii centers)
  · rw [List.chain'_map]
    exact selectArcs_chain contour.length hN ivs.enum
  · intro hle
    unfold approximateCurveByCircles
    rw [selectArcs_stop contour.length ivs.enum hle]
    rfl

/-- C6: filter_small_arcs never increases the number of segments or the
length of the descriptor array, and never removes an arc whose chord
(the Euclidean distance between the contour points at the interval's two
endpoints) is at least min_size, regardless of min_angle: such an arc
passes is_large_enough through its first branch. -/
theorem filter_small_arcs_spec (segDesc : List (ℚ × ℚ) → List ℚ) (p : Piece)
    (minSize minAngle : ℚ) (hlen : p.descriptor.length = p.segments.length) :
    (filterSmallArcs segDesc p minSize minAngle).segments.length
      ≤ p.segments.length
    ∧ (filterSmallArcs segDesc p minSize minAngle).descriptor.length
      ≤ p.descriptor.length
    ∧ ∀ a ∈ p.segments,
        (minSize : ℝ) ≤ Real.sqrt ((chordSq p a : ℚ) : ℝ) →
        a ∈ (filterSmallArcs segDesc p minSize minAngle).segments := by
  simp only [filterSmallArcs]
  split_ifs with hsame
  · exact ⟨le_rfl, le_rfl, fun a ha _ => ha⟩
  · refine ⟨?_, ?_, ?_⟩
    · exact List.length_filter_le _ _
    · show (List.map _ (p.segments.filter _)).length ≤ p.descriptor.length
      rw [List.length_map, hlen]
      exact List.length_filter_le _ _
    · intro a ha hchord
      apply List.mem_filter.mpr
      refine ⟨ha, ?_⟩
      unfold isLargeEnough
      have hn : normGe (chordSq p a) minSize = true :=
        (normGe_iff_sqrt _ _ (chordSq_nonneg p a)).mpr hchord
      rw [if_pos hn]

/-- C8 counterexample: a piece with zero segments has the empty
descriptor np.array([]), whose shape is one-dimensional, and
get_distances then raises IndexError instead of returning a
0 x 0 matrix; the embedding returns none. -/
theorem get_distances_zero_arcs_crash :
    getDistancesP emptyPiece emptyPiece = none := rfl

/-- C8 (amended): whenever both pieces have at least one segment (and
their descriptors are per-arc, one row per segment, as the Piece
constructor guarantees), get_distances returns a matrix with one row per
segment of the first piece and one column per segment of the second, and
every entry is nonnegative, being a mean of Euclidean distances. -/
theorem get_distances_shape_nonneg (A B : Piece)
    (hA : A.descriptor.length = A.segments.length)
    (hB : B.descriptor.length = B.segments.length)
    (hAne : A.segments ≠ []) (hBne : B.segments ≠ []) :
    getDistancesP A B = some (distMatrix A.descriptor B.descriptor)
    ∧ (distMatrix A.descriptor B.descriptor).length = A.segments.length
    ∧ (∀ row ∈ distMatrix A.descriptor B.descriptor,
        row.length = B.segments.length)
    ∧ (∀ row ∈ distMatrix A.descriptor B.descriptor, ∀ x ∈ row, 0 ≤ x) := by
  have hdA : A.descriptor ≠ [] := by
    intro he
    apply hAne
    apply List.length_eq_zero.mp
    rw [← hA, he]
    rfl
  have hdB : B.descriptor ≠ [] := by
    intro he
    apply hBne
    apply List.length_eq_zero.mp
    rw [← hB, he]
    rfl
  refine ⟨?_, ?_, ?_, ?_⟩
  · unfold getDistancesP getDistances
    cases hA1 : A.descriptor with
    | nil => exact absurd hA1 hdA
    | cons r rs =>
      cases hB1 : B.descriptor with
      | nil => exact absurd hB1 hdB
      | cons s ss => rfl
  · show (List.map _ A.descriptor).length = A.segments.length
    rw [List.length_map, hA]
  · intro row hrow
    unfold distMatrix at hrow
    rcases List.mem_map.mp hrow with ⟨a, ha, rfl⟩
    show (List.map _ B.descriptor).length = B.segments.length
    rw [List.length_map, hB]
  · intro row hrow x hx
    unfold distMatrix at hrow
    rcases List.mem_map.mp hrow with ⟨a, ha, rfl⟩
    rcases List.mem_map.mp hx with ⟨b, hb, rfl⟩
    apply div_nonneg
    · apply List.sum_nonneg
      intro y hy
      rcases List.mem_map.mp hy with ⟨k, hk, rfl⟩
      exact Real.sqrt_nonneg _
    · exact Nat.cast_nonneg _

/-- C10 counterexample: with min_segment_length 0 every candidate
satisfies both separation conditions, the candidate list never shrinks,
and the source's while loop never terminates on any input with at least
one candidate of |radius| < 15; the embedding returns none on the radii
array [0]. -/
theorem get_splitting_points_zero_diverges :
    getSplittingPoints [0] 0 = none := by
  have hc : ((isort (fun i j =>
      decide (|([(0 : ℚ)].getD i 0)| ≤ |([(0 : ℚ)].getD j 0)|))
      (List.range ([(0 : ℚ)].length))).filter
      (fun i => decide (|([(0 : ℚ)].getD i 0)| < 15))) = [0] := by decide
  have hloop : splitSel ([(0 : ℚ)].length) 0 [0] [] = none := by
    rw [splitSel]
    rw [dif_neg (by decide)]
  simp only [getSplittingPoints]
  rw [hc, hloop]
  rfl

/-- C10 (amended): for every radii array and every min_segment_length of
at least 1, get_splitting_points terminates and returns indices sorted
ascending, each with |radius| below 15, and every two distinct returned
indices at circular separation min(|i-j|, N-|i-j|) of at least
min_segment_length. -/
theorem get_splitting_points_spec (radii : List ℚ) (L : ℕ) (hL : 1 ≤ L) :
    ∃ out, getSplittingPoints radii L = some out
      ∧ out.Pairwise (· ≤ ·)
      ∧ (∀ i ∈ out, |radii.getD i 0| < 15)
      ∧ (∀ i ∈ out, ∀ j ∈ out, i ≠ j →
          L ≤ min (absDiff i j) (radii.length - absDiff i j)) := by
  have hs := splitSel_isSome radii.length L hL
    ((isort (fun i j => decide (|radii.getD i 0| ≤ |radii.getD j 0|))
        (List.range radii.length)).filter
      (fun i => decide (|radii.getD i 0| < 15))) []
  obtain ⟨sel, hsel⟩ := Option.isSome_iff_exists.mp hs
  have hsound := splitSel_sound radii.length L _ [] sel hsel
  have hsep : ∀ a ∈ sel, ∀ b ∈ sel, a ≠ b → sepOK radii.length L a b := by
    refine hsound.2 ?_ ?_
    · intro a ha
      cases ha
    · intro q hq a ha
      cases ha
  have hmemsel : ∀ i ∈ sel, |radii.getD i 0| < 15 := by
    intro i hi
    rcases hsound.1 i hi with h | h
    · cases h
    · have := List.of_mem_filter h
      simpa using this
  have htot : ∀ a b : ℕ, (fun i j => decide (i ≤ j)) a b = true
      ∨ (fun i j => decide (i ≤ j)) b a = true := by
    intro a b
    rcases Nat.le_total a b with h | h <;> simp [h]
  have htrans : ∀ a b c : ℕ, (fun i j => decide (i ≤ j)) a b = true →
      (fun i j => decide (i ≤ j)) b c = true →
      (fun i j => decide (i ≤ j)) a c = true := by
    intro a b c h1 h2
    simp only [decide_eq_true_eq] at h1 h2 ⊢
    exact le_trans h1 h2
  refine ⟨isort (fun i j => decide (i ≤ j)) sel, ?_, ?_, ?_, ?_⟩
  · simp only [getSplittingPoints]
    rw [hsel]
    rfl
  · exact (isort_sorted _ htot htrans sel).imp (fun h => by simpa using h)
  · intro i hi
    exact hmemsel i ((isort_perm _ _).mem_iff.mp hi)
  · intro i hi j hj hne
    have h := hsep i ((isort_perm _ _).mem_iff.mp hi)
      j ((isort_perm _ _).mem_iff.mp hj) hne
    unfold sepOK absDiff at h
    unfold absDiff
    omega

/-! ## Witnesses: each claim theorem applied at a concrete input -/

/-- Witness for C1: adding piece 2 to the two-member cluster cW. -/
theorem cluster_add_border_increment_witness :
    ((2 : ℕ) ∉ keysOf cW.pieces)
    ∧ add intOps cW dC 9 = Except.ok (addFn intOps cW dC 9)
    ∧ (addFn intOps cW dC 9).borderLength
        = cW.borderLength
          + (cW.descriptors.map
              (fun x => intOps.gccl dC.contour x.2.contour)).sum := by
  refine ⟨by decide, ?_, ?_⟩
  · exact (cluster_add_border_increment intOps cW dC 9
      ⟨by decide, rfl, rfl⟩ (by decide)).1
  · exact (cluster_add_border_increment intOps cW dC 9
      ⟨by decide, rfl, rfl⟩ (by decide)).2

/-- Witness for C2: merging disjoint clusters fails with no shared
piece, and merging clusters that disagree on the non-anchor id 1 fails
as inconsistent. -/
theorem cluster_merge_failure_witness :
    merge intOps cW cV = Except.error ClusterError.noSharedPiece
    ∧ merge intOps cX cY = Except.error ClusterError.inconsistentMerge := by
  constructor
  · exact (cluster_merge_failure_spec intOps cW cV
      ⟨by decide, rfl, rfl⟩ ⟨by decide, rfl, rfl⟩).1 (by decide)
  · exact (cluster_merge_failure_spec intOps cX cY
      ⟨by decide, rfl, rfl⟩ ⟨by decide, rfl, rfl⟩).2 0 [1] (by decide)
      ⟨1, by decide, by decide⟩

/-- Witness for C3: re-adding member 0 of cW fails. -/
theorem cluster_add_duplicate_witness :
    ((0 : ℕ) ∈ keysOf cW.pieces)
    ∧ add intOps cW dA 1 = Except.error ClusterError.duplicateMember :=
  ⟨by decide, cluster_add_duplicate intOps cW dA 1 (by decide)⟩

/-- Witness for C4: transforming cW by 4. -/
theorem cluster_transform_witness :
    keysOf (transform intOps cW 4).pieces = keysOf cW.pieces
    ∧ (transform intOps cW 4).transformations
        = cW.transformations.map (fun x => (x.1, intOps.compose x.2 4))
    ∧ (transform intOps cW 4).borderLength = cW.borderLength
    ∧ selfIntersection intOps (transform intOps cW 4)
        = selfIntersection intOps cW :=
  cluster_transform_spec intOps cW 4 ⟨by decide, rfl, rfl⟩
    (fun _ _ _ => rfl) (fun _ _ => rfl) (fun _ => rfl)

/-- Witness for C7: merging cW with itself succeeds. -/
theorem cluster_merge_self_witness :
    cW.pieces ≠ [] ∧ (merge intOps cW cW).isOk = true := by
  refine ⟨by decide, ?_⟩
  obtain ⟨a, ha, heq, hk, ht⟩ := cluster_merge_self_spec intOps cW
    ⟨by decide, rfl, rfl⟩ (by decide) (fun t => by simp [intOps])
  rw [heq]
  rfl

/-- Witness for C9: the cluster built from a two-entry pieces mapping is
reachable and its maps are consistent. -/
theorem cluster_reachable_witness :
    keysOf cW.descriptors = keysOf cW.pieces
    ∧ keysOf cW.transformations = keysOf cW.pieces :=
  ⟨(cluster_reachable_consistent intOps cW (Reachable.init _ (by decide))).1,
   (cluster_reachable_consistent intOps cW (Reachable.init _ (by decide))).2.1⟩

/-- Witness for C5: a three-point contour with concrete validity
intervals. -/
theorem approx_curve_witness :
    0 < contour3.length
    ∧ ((approximateCurveByCircles contour3 [1, 1, 1]
        [(0, 0), (0, 0), (0, 0)] [(0, 2), (1, 2), (2, 0)]).map
        (fun a => a.circleIdx)).Pairwise (· ≤ ·) := by
  refine ⟨by decide, ?_⟩
  exact (approx_curve_by_circles_spec contour3 [1, 1, 1]
    [(0, 0), (0, 0), (0, 0)] [(0, 2), (1, 2), (2, 0)] (by decide)).1

/-- Witness for C6: the arc of pW has chord 3 and survives filtering
with min_size 0. -/
theorem filter_small_arcs_witness :
    pW.descriptor.length = pW.segments.length
    ∧ (filterSmallArcs (fun _ => []) pW 0 0).segments.length
        ≤ pW.segments.length
    ∧ arc1 ∈ (filterSmallArcs (fun _ => []) pW 0 0).segments := by
  refine ⟨rfl, ?_, ?_⟩
  · exact (filter_small_arcs_spec (fun _ => []) pW 0 0 rfl).1
  · refine (filter_small_arcs_spec (fun _ => []) pW 0 0 rfl).2.2 arc1
      (by decide) ?_
    have h0 : (((0 : ℚ)) : ℝ) = 0 := by norm_num
    rw [h0]
    exact Real.sqrt_nonneg _

/-- Witness for C8 (amended): two copies of a one-arc piece. -/
theorem get_distances_witness :
    getDistancesP pD pD = some (distMatrix pD.descriptor pD.descriptor)
    ∧ (distMatrix pD.descriptor pD.descriptor).length = pD.segments.length := by
  refine ⟨?_, ?_⟩
  · exact (get_distances_shape_nonneg pD pD rfl rfl (by decide) (by decide)).1
  · exact (get_distances_shape_nonneg pD pD rfl rfl (by decide) (by decide)).2.1

/-- Witness for C10 (amended): min_segment_length 1 on the radii array
[0]. -/
theorem get_splitting_points_witness :
    1 ≤ 1 ∧ (getSplittingPoints [0] 1).isSome = true := by
  refine ⟨le_rfl, ?_⟩
  obtain ⟨out, hout, hrest⟩ := get_splitting_points_spec [0] 1 le_rfl
  rw [hout]
  rfl

end PieceAssemble
